import Mathlib

/-!
Verification of the core pipeline of `next-meeting` (main.go): field
resolution, event filtering, interval collapsing and presentation.

Times are modelled by a record of the wall-clock fields plus a zone
offset, mirroring Go's `time.Time` as it is used by this program
(`time.Parse` of the two layouts `"2006-01-02"` and RFC 3339,
`Format`, `After`, `==`, and `time.Date` for day truncation).
Absolute-instant comparison (`time.Time.After`) is modelled by
comparing `absNanos`, the number of nanoseconds relative to a fixed
epoch computed from the wall fields and the zone offset.
-/

namespace NextMeeting

/-- Model of Go `time.Time` as used by this program: wall-clock fields,
zone offset in minutes, and the zone name (Go compares locations as part
of `==` on `time.Time`). -/
structure Time where
  year : Nat
  month : Nat
  day : Nat
  hour : Nat
  minute : Nat
  sec : Nat
  nsec : Nat
  offsetMin : Int
  locName : String
deriving DecidableEq, Repr

/-- The zero `time.Time` value: January 1, year 1, 00:00:00 UTC. -/
def Time.goZero : Time := ⟨1, 1, 1, 0, 0, 0, 0, 0, "UTC"⟩

/-- Days from the civil epoch for a (year, month, day) wall date
(standard civil-calendar day-numbering; only its monotonicity in the
calendar order is relied upon). -/
def daysFromCivil (y m d : Nat) : Nat :=
  let y' := if m ≤ 2 then y - 1 else y
  let era := y' / 400
  let yoe := y' - era * 400
  let mp := if 2 < m then m - 3 else m + 9
  let doy := (153 * mp + 2) / 5 + d - 1
  let doe := yoe * 365 + yoe / 4 - yoe / 100 + doy
  era * 146097 + doe

/-- Absolute instant of a `Time`, in nanoseconds from a fixed epoch:
wall-clock seconds minus the zone offset, scaled, plus nanoseconds.
Models the instant that Go's `time.Time.After`/`Before` compare. -/
def Time.absNanos (t : Time) : Int :=
  ((daysFromCivil t.year t.month t.day * 86400 + t.hour * 3600 +
      t.minute * 60 + t.sec : Nat) - t.offsetMin * 60) * 1000000000 + t.nsec

/-- Model of Go `time.Time.After`: strict comparison of absolute instants. -/
def Time.after (t u : Time) : Prop := u.absNanos < t.absNanos

instance (t u : Time) : Decidable (t.after u) :=
  inferInstanceAs (Decidable (u.absNanos < t.absNanos))

/-- Model of `truncDay` (main.go): `time.Date(y, m, d, 0, 0, 0, 0, loc)`,
i.e. the same calendar day at midnight in the same location. -/
def truncDay (t : Time) : Time :=
  { t with hour := 0, minute := 0, sec := 0, nsec := 0 }

/- ### Parsing: model of Go `time.Parse` for the two layouts used -/

/-- Read exactly `k` decimal digits, returning the value and the rest. -/
def readFixedNat : Nat → List Char → Nat → Option (Nat × List Char)
  | 0, cs, acc => some (acc, cs)
  | k + 1, c :: cs, acc =>
      if c.isDigit then readFixedNat k cs (acc * 10 + (c.toNat - 48)) else none
  | _ + 1, [], _ => none

/-- Consume one expected character. -/
def expectChar (c : Char) : List Char → Option (List Char)
  | x :: rest => if x = c then some rest else none
  | [] => none

/-- Gregorian leap year. -/
def isLeap (y : Nat) : Bool := y % 4 = 0 && (y % 100 ≠ 0 || y % 400 = 0)

/-- Number of days in a month (as Go's date validation uses). -/
def daysIn (y m : Nat) : Nat :=
  if m = 2 then (if isLeap y then 29 else 28)
  else if m = 4 ∨ m = 6 ∨ m = 9 ∨ m = 11 then 30
  else 31

/-- Parse the `2006-01-02` date fields with Go's range validation,
returning year, month, day and the unconsumed input. -/
def parseDateFields (cs : List Char) : Option (Nat × Nat × Nat × List Char) := do
  let (y, cs) ← readFixedNat 4 cs 0
  let cs ← expectChar '-' cs
  let (mo, cs) ← readFixedNat 2 cs 0
  let cs ← expectChar '-' cs
  let (d, cs) ← readFixedNat 2 cs 0
  if 1 ≤ mo ∧ mo ≤ 12 ∧ 1 ≤ d ∧ d ≤ daysIn y mo then some (y, mo, d, cs) else none

/-- Model of Go `time.Parse("2006-01-02", s)`: a full-string date, at
midnight UTC. -/
def parseDateOnly (s : String) : Option Time :=
  match parseDateFields s.data with
  | some (y, mo, d, []) => some ⟨y, mo, d, 0, 0, 0, 0, 0, "UTC"⟩
  | _ => none

/-- Nanoseconds from a fractional-second digit string (1 to 9 digits). -/
def nsecOfFrac (ds : List Char) : Option Nat :=
  if ds.length = 0 ∨ 9 < ds.length then none
  else some ((ds.foldl (fun a c => a * 10 + (c.toNat - 48)) 0) * 10 ^ (9 - ds.length))

/-- Parse the RFC 3339 zone suffix: `Z` or `±HH:MM`. Returns the offset
in minutes, the location name, and the unconsumed input. -/
def parseZone : List Char → Option (Int × String × List Char)
  | 'Z' :: rest => some (0, "UTC", rest)
  | c :: rest =>
      if c = '+' ∨ c = '-' then
        match readFixedNat 2 rest 0 with
        | some (zh, rest) =>
            match expectChar ':' rest with
            | some rest =>
                match readFixedNat 2 rest 0 with
                | some (zm, rest) =>
                    if zh ≤ 23 ∧ zm ≤ 59 then
                      some (((if c = '-' then -1 else 1) : Int) * (zh * 60 + zm),
                            String.mk [c] ++ toString zh ++ ":" ++ toString zm, rest)
                    else none
                | none => none
            | none => none
        | none => none
      else none
  | [] => none

/-- Model of Go `time.Parse(time.RFC3339, s)`: date, `T`, time, optional
fractional seconds, and a `Z` or `±HH:MM` zone. -/
def parseRFC3339 (s : String) : Option Time := do
  let (y, mo, d, cs) ← parseDateFields s.data
  let cs ← expectChar 'T' cs
  let (h, cs) ← readFixedNat 2 cs 0
  let cs ← expectChar ':' cs
  let (mi, cs) ← readFixedNat 2 cs 0
  let cs ← expectChar ':' cs
  let (se, cs) ← readFixedNat 2 cs 0
  if h ≤ 23 ∧ mi ≤ 59 ∧ se ≤ 59 then
    let (ns, cs) ←
      (match cs with
       | '.' :: rest =>
           let p := rest.span Char.isDigit
           match nsecOfFrac p.1 with
           | some n => some (n, p.2)
           | none => none
       | _ => some (0, cs) : Option (Nat × List Char))
    let (off, ln, cs) ← parseZone cs
    if cs = [] then some ⟨y, mo, d, h, mi, se, ns, off, ln⟩ else none
  else none

/-- The date-only layout string used by `parseDay`. -/
def layoutDateOnly : String := "2006-01-02"

/-- The `time.RFC3339` layout string used by `parseDay`. -/
def layoutRFC3339 : String := "2006-01-02T15:04:05Z07:00"

/-- Model of Go `time.Parse` restricted to the two layouts this program
passes to it. -/
def timeParse (layout : String) (s : String) : Option Time :=
  if layout = layoutDateOnly then parseDateOnly s
  else if layout = layoutRFC3339 then parseRFC3339 s
  else none

/-- The format-attempt loop of `parseDay` (main.go): try each layout in
order, return the first success. -/
def parseDayGo : List String → String → Option Time
  | [], _ => none
  | f :: fs, d =>
      match timeParse f d with
      | some t => some t
      | none => parseDayGo fs d

/-- `parseDay` (main.go): try `"2006-01-02"` then `time.RFC3339`;
`none` models the `nil` return when neither layout parses. -/
def parseDay (d : String) : Option Time :=
  parseDayGo [layoutDateOnly, layoutRFC3339] d

/- ### Formatting: model of Go `Format` for the two layouts used -/

/-- Two-digit zero-padded field. -/
def pad2 (n : Nat) : String := if n < 10 then "0" ++ toString n else toString n

/-- Four-digit zero-padded year field. -/
def pad4 (n : Nat) : String :=
  if n < 10 then "000" ++ toString n
  else if n < 100 then "00" ++ toString n
  else if n < 1000 then "0" ++ toString n
  else toString n

/-- Model of Go `t.Format("2006-01-02 15:04")`. -/
def formatYMDHM (t : Time) : String :=
  pad4 t.year ++ "-" ++ pad2 t.month ++ "-" ++ pad2 t.day ++ " " ++
    pad2 t.hour ++ ":" ++ pad2 t.minute

/-- Model of Go `t.Format("15:04")`. -/
def formatHM (t : Time) : String := pad2 t.hour ++ ":" ++ pad2 t.minute

/- ### The calendar event model (the fields of `calendar.Event` this
program reads) -/

/-- Model of `calendar.EventDateTime`: either a date-only value or a
full timestamp (either may be empty). -/
structure EventDateTime where
  Date : String
  DateTime : String
deriving DecidableEq, Repr

/-- Model of `calendar.EventAttendee` (fields read by the program). -/
structure EventAttendee where
  Self : Bool
  ResponseStatus : String
deriving DecidableEq, Repr

/-- Model of `calendar.EntryPoint` (fields read by the program). -/
structure EntryPoint where
  Uri : String
  MeetingCode : String
  Password : String
deriving DecidableEq, Repr

/-- Model of `calendar.ConferenceData` (fields read by the program);
the Go pointer is modelled by `Option` at the use site. -/
structure ConferenceData where
  EntryPoints : List EntryPoint
deriving DecidableEq, Repr

/-- Model of `calendar.Event` restricted to the fields the program
reads. A nil `ConferenceData` pointer is `none`. -/
structure CalEvent where
  Summary : String
  Location : String
  ColorId : String
  Start : EventDateTime
  End : EventDateTime
  Attendees : List EventAttendee
  Conference : Option ConferenceData
  HtmlLink : String
deriving DecidableEq, Repr

/-- `startDateFrom` (main.go): prefer `Start.DateTime`, fall back to
`Start.Date` when it is empty. -/
def startDateFrom (event : CalEvent) : String :=
  if event.Start.DateTime = "" then event.Start.Date else event.Start.DateTime

/-- `endDateFrom` (main.go): prefer `End.DateTime`, fall back to
`End.Date` when it is empty. -/
def endDateFrom (event : CalEvent) : String :=
  if event.End.DateTime = "" then event.End.Date else event.End.DateTime

/-- `rspStatusFrom` (main.go): the response status of the first
attendee flagged `Self`; `""` when there is none. -/
def rspStatusFrom (event : CalEvent) : String :=
  match event.Attendees.find? (fun a => a.Self) with
  | some a => a.ResponseStatus
  | none => ""

/- ### URL resolution: model of the `https?://(\S)+` regexp and
`zoomFrom` / `urlFrom` -/

/-- RE2 whitespace class `\s` (space, tab, newline, form feed,
carriage return); `\S` is its complement. -/
def isSpaceChar (c : Char) : Bool :=
  c = ' ' ∨ c = '\t' ∨ c = '\n' ∨ c = '\x0c' ∨ c = '\r'

/-- Match the `https?://` scheme at the head of the input, returning
the consumed scheme characters and the rest. -/
def dropUrlScheme : List Char → Option (List Char × List Char)
  | 'h' :: 't' :: 't' :: 'p' :: 's' :: ':' :: '/' :: '/' :: rest =>
      some (['h', 't', 't', 'p', 's', ':', '/', '/'], rest)
  | 'h' :: 't' :: 't' :: 'p' :: ':' :: '/' :: '/' :: rest =>
      some (['h', 't', 't', 'p', ':', '/', '/'], rest)
  | _ => none

/-- Match `https?://(\S)+` anchored at the head of the input. -/
def matchUrlAt (cs : List Char) : Option (List Char) :=
  match dropUrlScheme cs with
  | none => none
  | some (scheme, rest) =>
      let tl := rest.takeWhile (fun c => !isSpaceChar c)
      if tl.isEmpty then none else some (scheme ++ tl)

/-- Leftmost match of `https?://(\S)+`, scanning positions left to
right (the semantics of `regexp.FindString`). -/
def findUrlAux : List Char → Option (List Char)
  | [] => none
  | c :: rest =>
      match matchUrlAt (c :: rest) with
      | some m => some m
      | none => findUrlAux rest

/-- Model of `findUrl.FindString` (main.go): the leftmost match of the
package-level regexp `https?://(\S)+`, or `""` when there is none. -/
def findUrlFindString (s : String) : String :=
  match findUrlAux s.data with
  | some m => String.mk m
  | none => ""

/-- `zoomFrom` (main.go): for non-nil conference data, the first entry
point with a non-empty meeting code, rendered as
`"<uri> (meeting:<code> pass:<password>)"`; otherwise `""`. -/
def zoomFrom : Option ConferenceData → String
  | none => ""
  | some conf =>
      match conf.EntryPoints.find? (fun ep => ep.MeetingCode != "") with
      | some ep => ep.Uri ++ " (meeting:" ++ ep.MeetingCode ++ " pass:" ++ ep.Password ++ ")"
      | none => ""

/-- `urlFrom` (main.go): first URL token in the location, else the
conference-data rendering, else the raw location text. -/
def urlFrom (event : CalEvent) : String :=
  let loc := findUrlFindString event.Location
  let loc := if loc = "" then zoomFrom event.Conference else loc
  let loc := if loc = "" then event.Location else loc
  loc

/- ### The interval collapser -/

/-- The `Event` struct of main.go: a start/end interval. -/
structure Event where
  Start : Time
  End : Time
deriving DecidableEq, Repr

/-- The loop of `collapse` (main.go): `out` is the accumulated output,
`ev` the current open interval. Appending `i` as the new open interval
copies its fields, which is the value itself. -/
def collapseAux (out : List Event) (ev : Event) : List Event → List Event
  | [] => out ++ [ev]
  | i :: rest =>
      if i.Start.after ev.End then
        collapseAux (out ++ [ev]) i rest
      else if i.End.after ev.End then
        collapseAux out { Start := ev.Start, End := i.End } rest
      else
        collapseAux out ev rest

/-- `collapse` (main.go): merge an ordered interval sequence. The seed
`Event{Start: in[0].Start, End: in[0].End}` is the first element itself. -/
def collapse (input : List Event) : List Event :=
  match input with
  | [] => []
  | first :: rest => collapseAux [] first rest

/- ### The main loop (the `else` branch of main.go lines 214-270) -/

/-- The per-item filter of the main loop: an item survives the two
`continue`s when its color tag is empty and it is not declined. -/
def keepItem (item : CalEvent) : Bool :=
  !(item.ColorId != "" || rspStatusFrom item == "declined")

/-- The `Event` built for a surviving item: parsed start/end, left at
the zero time when parsing fails (main.go lines 228-240). -/
def evFrom (item : CalEvent) : Event :=
  { Start := match parseDay (startDateFrom item) with
             | some d => d
             | none => Time.goZero,
    End := match parseDay (endDateFrom item) with
           | some d => d
           | none => Time.goZero }

/-- The `day` local of the main loop: the truncated parsed start day,
left at the zero time when parsing fails. -/
def dayFrom (item : CalEvent) : Time :=
  match parseDay (startDateFrom item) with
  | some d => truncDay d
  | none => Time.goZero

/-- The `startDate` string after the main loop's reformatting: the
parsed start rendered as `"2006-01-02 15:04"`, or the raw field text
when parsing fails. -/
def startDateStr (item : CalEvent) : String :=
  match parseDay (startDateFrom item) with
  | some d => formatYMDHM d
  | none => startDateFrom item

/-- The `endDate` string after the main loop's reformatting: the parsed
end rendered as `"15:04"`, or the raw field text when parsing fails. -/
def endDateStr (item : CalEvent) : String :=
  match parseDay (endDateFrom item) with
  | some d => formatHM d
  | none => endDateFrom item

/-- The day-separator line printed by main.go. -/
def dashLine : String := "----------------------"

/-- The detail-mode line for one item: the `"%s-%s %-40s %s"` Printf
(`%-40s` left-justifies, padding with spaces on the right to width 40)
plus the conditional `" [%s: %s]"` suffix. -/
def detailLine (item : CalEvent) : String :=
  startDateStr item ++ "-" ++ endDateStr item ++ " " ++
    (item.Summary ++ String.mk (List.replicate (40 - item.Summary.length) ' ')) ++ " " ++
    urlFrom item ++
    (if rspStatusFrom item ≠ "" ∧ rspStatusFrom item ≠ "accepted"
     then " [" ++ rspStatusFrom item ++ ": " ++ item.HtmlLink ++ "]"
     else "")

/-- The mutable state of the main loop: the tracked previous day, the
buffered intervals for summary mode, and the lines printed so far. -/
structure LoopSt where
  prevDay : Time
  evs : List Event
  lines : List String
deriving DecidableEq, Repr

/-- One iteration of the main loop (main.go lines 218-255): skip
colored or declined items; in summary mode buffer the interval, in
detail mode print a day separator when the day changes and then the
detail line. -/
def processItem (summarize : Bool) (st : LoopSt) (item : CalEvent) : LoopSt :=
  if item.ColorId ≠ "" then st
  else if rspStatusFrom item = "declined" then st
  else if summarize then
    { st with evs := st.evs ++ [evFrom item] }
  else
    let day := dayFrom item
    if day ≠ st.prevDay then
      { prevDay := day, evs := st.evs, lines := st.lines ++ [dashLine, detailLine item] }
    else
      { st with lines := st.lines ++ [detailLine item] }

/-- One iteration of the summary-rendering loop (main.go lines 259-268)
over the collapsed intervals: day separator on day change, then the
`"%s-%s"` range line. -/
def summaryStep (st : Time × List String) (i : Event) : Time × List String :=
  let day := truncDay i.Start
  if day ≠ st.1 then
    (day, st.2 ++ [dashLine, formatYMDHM i.Start ++ "-" ++ formatHM i.End])
  else
    (st.1, st.2 ++ [formatYMDHM i.Start ++ "-" ++ formatHM i.End])

/-- The summary-mode rendering of the buffered intervals: collapse,
then the separator/range loop seeded with the current day. -/
def summaryLines (now : Time) (evs : List Event) : List String :=
  ((collapse evs).foldl summaryStep (truncDay now, [])).2

/-- The output lines of main.go from line 212 on, given the fetched
items: the no-events line when the raw list is empty, otherwise the
main loop's lines followed (in summary mode) by the summary rendering.
The two `time.Now()` calls (lines 215 and 258) are modelled by the
single parameter `now`. -/
def mainOutput (now : Time) (summarize : Bool) (items : List CalEvent) : List String :=
  if items.length = 0 then ["No upcoming events found."]
  else
    let st := items.foldl (processItem summarize) ⟨truncDay now, [], []⟩
    if summarize then st.lines ++ summaryLines now st.evs
    else st.lines

/- ### Properties of the collapser -/

/-- An interval sequence is ascending by start instant. -/
def sortedByStart (l : List Event) : Prop :=
  List.Chain' (fun a b => a.Start.absNanos ≤ b.Start.absNanos) l

/-- Adjacent intervals neither touch nor overlap: each start is
strictly after the previous end. -/
def separated (l : List Event) : Prop :=
  List.Chain' (fun a b => a.End.absNanos < b.Start.absNanos) l

/-- The instant `t` lies inside the (closed) interval `iv`. -/
def inIv (iv : Event) (t : Int) : Prop :=
  iv.Start.absNanos ≤ t ∧ t ≤ iv.End.absNanos

/-- The instant `t` is covered by some interval of the sequence. -/
def covers (l : List Event) (t : Int) : Prop := ∃ iv ∈ l, inIv iv t

instance (iv : Event) (t : Int) : Decidable (inIv iv t) :=
  inferInstanceAs (Decidable (_ ∧ _))

instance (l : List Event) (t : Int) : Decidable (covers l t) :=
  inferInstanceAs (Decidable (∃ iv ∈ l, inIv iv t))

theorem covers_cons {a : Event} {l : List Event} {t : Int} :
    covers (a :: l) t ↔ inIv a t ∨ covers l t := by
  simp [covers]

theorem collapseAux_nil (out : List Event) (ev : Event) :
    collapseAux out ev [] = out ++ [ev] := rfl

theorem collapseAux_cons_close {ev i : Event} (h : i.Start.after ev.End)
    (out : List Event) (rest : List Event) :
    collapseAux out ev (i :: rest) = collapseAux (out ++ [ev]) i rest := by
  conv_lhs => rw [collapseAux]
  rw [if_pos h]

theorem collapseAux_cons_extend {ev i : Event} (h1 : ¬ i.Start.after ev.End)
    (h2 : i.End.after ev.End) (out : List Event) (rest : List Event) :
    collapseAux out ev (i :: rest) =
      collapseAux out { Start := ev.Start, End := i.End } rest := by
  conv_lhs => rw [collapseAux]
  rw [if_neg h1, if_pos h2]

theorem collapseAux_cons_drop {ev i : Event} (h1 : ¬ i.Start.after ev.End)
    (h2 : ¬ i.End.after ev.End) (out : List Event) (rest : List Event) :
    collapseAux out ev (i :: rest) = collapseAux out ev rest := by
  conv_lhs => rw [collapseAux]
  rw [if_neg h1, if_neg h2]

/-- The output accumulator of the collapse loop only ever receives
appends: it can be split off. -/
theorem collapseAux_append (l : List Event) : ∀ (out : List Event) (ev : Event),
    collapseAux out ev l = out ++ collapseAux [] ev l := by
  induction l with
  | nil => intro out ev; simp [collapseAux_nil]
  | cons i rest ih =>
    intro out ev
    by_cases h1 : i.Start.after ev.End
    · rw [collapseAux_cons_close h1, collapseAux_cons_close h1,
        ih (out ++ [ev]) i, ih ([] ++ [ev]) i]
      simp
    · by_cases h2 : i.End.after ev.End
      · rw [collapseAux_cons_extend h1 h2, collapseAux_cons_extend h1 h2, ih]
      · rw [collapseAux_cons_drop h1 h2, collapseAux_cons_drop h1 h2, ih]

/-- The collapse loop's result is nonempty and its first interval keeps
the start of the seed interval. -/
theorem collapseAux_shape (l : List Event) : ∀ ev : Event,
    ∃ hd tl, collapseAux [] ev l = hd :: tl ∧ hd.Start = ev.Start := by
  induction l with
  | nil => intro ev; exact ⟨ev, [], rfl, rfl⟩
  | cons i rest ih =>
    intro ev
    by_cases h1 : i.Start.after ev.End
    · refine ⟨ev, collapseAux [] i rest, ?_, rfl⟩
      rw [collapseAux_cons_close h1, collapseAux_append]
      simp
    · by_cases h2 : i.End.after ev.End
      · obtain ⟨hd, tl, he, hs⟩ := ih { Start := ev.Start, End := i.End }
        exact ⟨hd, tl, by rw [collapseAux_cons_extend h1 h2]; exact he, hs⟩
      · obtain ⟨hd, tl, he, hs⟩ := ih ev
        exact ⟨hd, tl, by rw [collapseAux_cons_drop h1 h2]; exact he, hs⟩

/-- The collapse loop's output is separated: every output interval
starts strictly after the previous one ends. -/
theorem collapseAux_separated (l : List Event) : ∀ ev : Event,
    separated (collapseAux [] ev l) := by
  induction l with
  | nil => intro ev; simp [collapseAux_nil, separated]
  | cons i rest ih =>
    intro ev
    by_cases h1 : i.Start.after ev.End
    · rw [collapseAux_cons_close h1, collapseAux_append]
      simp only [List.nil_append, List.singleton_append]
      unfold separated at ih ⊢
      rw [List.chain'_cons']
      refine ⟨?_, ih i⟩
      intro b hb
      obtain ⟨hd, tl, he, hs⟩ := collapseAux_shape rest i
      rw [he] at hb
      simp only [List.head?_cons, Option.mem_def, Option.some.injEq] at hb
      subst hb
      rw [hs]
      exact h1
    · by_cases h2 : i.End.after ev.End
      · rw [collapseAux_cons_extend h1 h2]; exact ih _
      · rw [collapseAux_cons_drop h1 h2]; exact ih _

/-- Every start of an output interval is the seed's start or a start
from the remaining input, and likewise for ends. -/
theorem collapseAux_endpoints (l : List Event) : ∀ (ev x : Event),
    x ∈ collapseAux [] ev l →
      (x.Start = ev.Start ∨ ∃ y ∈ l, x.Start = y.Start) ∧
      (x.End = ev.End ∨ ∃ y ∈ l, x.End = y.End) := by
  induction l with
  | nil =>
    intro ev x hx
    simp only [collapseAux_nil, List.nil_append, List.mem_singleton] at hx
    subst hx
    exact ⟨Or.inl rfl, Or.inl rfl⟩
  | cons i rest ih =>
    intro ev x hx
    by_cases h1 : i.Start.after ev.End
    · rw [collapseAux_cons_close h1, collapseAux_append] at hx
      simp only [List.nil_append, List.singleton_append, List.mem_cons] at hx
      rcases hx with rfl | hx
      · exact ⟨Or.inl rfl, Or.inl rfl⟩
      · obtain ⟨hS, hE⟩ := ih i x hx
        constructor
        · rcases hS with h | ⟨y, hy, h⟩
          · exact Or.inr ⟨i, by simp, h⟩
          · exact Or.inr ⟨y, by simp [hy], h⟩
        · rcases hE with h | ⟨y, hy, h⟩
          · exact Or.inr ⟨i, by simp, h⟩
          · exact Or.inr ⟨y, by simp [hy], h⟩
    · by_cases h2 : i.End.after ev.End
      · rw [collapseAux_cons_extend h1 h2] at hx
        obtain ⟨hS, hE⟩ := ih { Start := ev.Start, End := i.End } x hx
        constructor
        · rcases hS with h | ⟨y, hy, h⟩
          · exact Or.inl h
          · exact Or.inr ⟨y, by simp [hy], h⟩
        · rcases hE with h | ⟨y, hy, h⟩
          · exact Or.inr ⟨i, by simp, h⟩
          · exact Or.inr ⟨y, by simp [hy], h⟩
      · rw [collapseAux_cons_drop h1 h2] at hx
        obtain ⟨hS, hE⟩ := ih ev x hx
        constructor
        · rcases hS with h | ⟨y, hy, h⟩
          · exact Or.inl h
          · exact Or.inr ⟨y, by simp [hy], h⟩
        · rcases hE with h | ⟨y, hy, h⟩
          · exact Or.inl h
          · exact Or.inr ⟨y, by simp [hy], h⟩

/-- Extending the open interval's end preserves sortedness of the
remaining work list. -/
theorem sortedByStart_extend {ev i : Event} {rest : List Event}
    (hs : sortedByStart (ev :: i :: rest)) (e : Time) :
    sortedByStart ({ Start := ev.Start, End := e } :: rest) := by
  unfold sortedByStart at hs ⊢
  rw [List.chain'_cons] at hs
  obtain ⟨h1, h2⟩ := hs
  rw [List.chain'_cons'] at h2
  rw [List.chain'_cons']
  exact ⟨fun b hb => le_trans h1 (h2.1 b hb), h2.2⟩

/-- Dropping a contained interval preserves sortedness of the
remaining work list. -/
theorem sortedByStart_drop {ev i : Event} {rest : List Event}
    (hs : sortedByStart (ev :: i :: rest)) :
    sortedByStart (ev :: rest) := by
  unfold sortedByStart at hs ⊢
  rw [List.chain'_cons] at hs
  obtain ⟨h1, h2⟩ := hs
  rw [List.chain'_cons'] at h2
  rw [List.chain'_cons']
  exact ⟨fun b hb => le_trans h1 (h2.1 b hb), h2.2⟩

/-- The collapse loop's output is sorted by start when the seed and
remaining input are. -/
theorem collapseAux_sorted (l : List Event) : ∀ ev : Event,
    sortedByStart (ev :: l) → sortedByStart (collapseAux [] ev l) := by
  induction l with
  | nil => intro ev _; simp [collapseAux_nil, sortedByStart]
  | cons i rest ih =>
    intro ev hs
    by_cases h1 : i.Start.after ev.End
    · rw [collapseAux_cons_close h1, collapseAux_append]
      simp only [List.nil_append, List.singleton_append]
      have hs' : sortedByStart (i :: rest) := (List.chain'_cons.mp hs).2
      unfold sortedByStart
      rw [List.chain'_cons']
      refine ⟨?_, ih i hs'⟩
      intro b hb
      obtain ⟨hd, tl, he, hstart⟩ := collapseAux_shape rest i
      rw [he] at hb
      simp only [List.head?_cons, Option.mem_def, Option.some.injEq] at hb
      subst hb
      rw [hstart]
      exact (List.chain'_cons.mp hs).1
    · by_cases h2 : i.End.after ev.End
      · rw [collapseAux_cons_extend h1 h2]
        exact ih _ (sortedByStart_extend hs i.End)
      · rw [collapseAux_cons_drop h1 h2]
        exact ih _ (sortedByStart_drop hs)

/-- The collapse loop covers exactly the instants covered by the seed
together with the remaining input, when they are sorted by start. -/
theorem collapseAux_covers (l : List Event) : ∀ ev : Event,
    sortedByStart (ev :: l) →
      ∀ t : Int, covers (ev :: l) t ↔ covers (collapseAux [] ev l) t := by
  induction l with
  | nil => intro ev _ t; rw [collapseAux_nil]; simp
  | cons i rest ih =>
    intro ev hs t
    by_cases h1 : i.Start.after ev.End
    · rw [collapseAux_cons_close h1, collapseAux_append]
      simp only [List.nil_append, List.singleton_append]
      simp only [covers_cons]
      have h := ih i (List.chain'_cons.mp hs).2 t
      rw [covers_cons] at h
      exact or_congr Iff.rfl h
    · have hle : i.Start.absNanos ≤ ev.End.absNanos := not_lt.mp h1
      have hstart : ev.Start.absNanos ≤ i.Start.absNanos := (List.chain'_cons.mp hs).1
      by_cases h2 : i.End.after ev.End
      · rw [collapseAux_cons_extend h1 h2,
          ← ih { Start := ev.Start, End := i.End } (sortedByStart_extend hs i.End) t]
        simp only [covers_cons]
        have h2' : ev.End.absNanos < i.End.absNanos := h2
        constructor
        · rintro (h | h | h)
          · exact Or.inl ⟨h.1, le_trans h.2 (le_of_lt h2')⟩
          · exact Or.inl ⟨le_trans hstart h.1, h.2⟩
          · exact Or.inr h
        · rintro (h | h)
          · rcases le_or_lt t ev.End.absNanos with hc | hc
            · exact Or.inl ⟨h.1, hc⟩
            · exact Or.inr (Or.inl ⟨le_trans hle (le_of_lt hc), h.2⟩)
          · exact Or.inr (Or.inr h)
      · rw [collapseAux_cons_drop h1 h2, ← ih ev (sortedByStart_drop hs) t]
        simp only [covers_cons]
        have h2' : i.End.absNanos ≤ ev.End.absNanos := not_lt.mp h2
        constructor
        · rintro (h | h | h)
          · exact Or.inl h
          · exact Or.inl ⟨le_trans hstart h.1, le_trans h.2 h2'⟩
          · exact Or.inr h
        · rintro (h | h)
          · exact Or.inl h
          · exact Or.inr (Or.inr h)

/-- A separated sequence passes through the collapse loop unchanged. -/
theorem collapseAux_of_separated (l : List Event) : ∀ ev : Event,
    separated (ev :: l) → collapseAux [] ev l = ev :: l := by
  induction l with
  | nil => intro ev _; rfl
  | cons i rest ih =>
    intro ev h
    unfold separated at h
    rw [List.chain'_cons] at h
    have h1 : i.Start.after ev.End := h.1
    rw [collapseAux_cons_close h1, collapseAux_append, ih i h.2]
    simp

/-- `collapse` leaves a separated sequence unchanged. -/
theorem collapse_of_separated (l : List Event) (h : separated l) : collapse l = l := by
  cases l with
  | nil => rfl
  | cons first rest => exact collapseAux_of_separated rest first h

/-- Case analysis of `collapse` on a two-interval input. -/
theorem collapse_pair_eq (a b : Event) :
    collapse [a, b] =
      if b.Start.after a.End then [a, b]
      else if b.End.after a.End then [{ Start := a.Start, End := b.End }]
      else [a] := by
  by_cases h1 : b.Start.after a.End
  · rw [if_pos h1]
    show collapseAux [] a [b] = [a, b]
    rw [collapseAux_cons_close h1, collapseAux_nil]
    rfl
  · rw [if_neg h1]
    by_cases h2 : b.End.after a.End
    · rw [if_pos h2]
      show collapseAux [] a [b] = _
      rw [collapseAux_cons_extend h1 h2, collapseAux_nil]
      rfl
    · rw [if_neg h2]
      show collapseAux [] a [b] = [a]
      rw [collapseAux_cons_drop h1 h2, collapseAux_nil]
      rfl

/- ### Claim theorems about the collapser -/

/-- C1: for an input sequence sorted ascending by start, the output of
`collapse` is sorted ascending by start, covers exactly the same set of
time points (instants inside the closed intervals), and is minimal:
every output interval starts strictly after the previous one ends, so
no two adjacent output intervals touch or overlap. -/
theorem collapse_output_sorted_separated_covers (xs : List Event)
    (hs : sortedByStart xs) :
    sortedByStart (collapse xs) ∧ separated (collapse xs) ∧
      ∀ t : Int, covers xs t ↔ covers (collapse xs) t := by
  cases xs with
  | nil =>
    refine ⟨?_, ?_, fun t => Iff.rfl⟩
    · simp [collapse, sortedByStart]
    · simp [collapse, separated]
  | cons first rest =>
    exact ⟨collapseAux_sorted rest first hs, collapseAux_separated rest first,
      collapseAux_covers rest first hs⟩

/-- Witness for C1 on the concrete overlap example. -/
def wT (hh mm : Nat) : Time := ⟨2021, 5, 3, hh, mm, 0, 0, 0, "UTC"⟩

/-- Concrete ascending interval sequence used by the witnesses. -/
def wEvents : List Event :=
  [⟨wT 10 0, wT 10 30⟩, ⟨wT 10 15, wT 11 0⟩, ⟨wT 12 0, wT 12 30⟩]

theorem wEvents_sorted : sortedByStart wEvents := by
  simp only [sortedByStart, wEvents, List.chain'_cons, List.chain'_singleton, and_true]
  exact ⟨by decide, by decide⟩

theorem collapse_output_sorted_separated_covers_witness :
    sortedByStart wEvents ∧
      (covers wEvents (wT 10 45).absNanos ↔
        covers (collapse wEvents) (wT 10 45).absNanos) :=
  ⟨wEvents_sorted, (collapse_output_sorted_separated_covers wEvents wEvents_sorted).2.2 _⟩

/-- C3: an interval whose start equals the current open interval's end is
merged rather than closing the open interval: the two-interval collapse
yields a single interval exactly when the later start is less than or
equal to the earlier end (not only when it is strictly less). -/
theorem collapse_overlap_tiebreak (a b : Event) :
    (b.Start.absNanos = a.End.absNanos →
        collapse [a, b] =
          [{ Start := a.Start, End := if b.End.after a.End then b.End else a.End }]) ∧
    ((collapse [a, b]).length = 1 ↔ b.Start.absNanos ≤ a.End.absNanos) := by
  have hp := collapse_pair_eq a b
  constructor
  · intro heq
    have h1 : ¬ b.Start.after a.End := by unfold Time.after; omega
    rw [hp, if_neg h1]
    by_cases h2 : b.End.after a.End
    · rw [if_pos h2, if_pos h2]
    · rw [if_neg h2, if_neg h2]
  · constructor
    · intro hlen
      by_contra hnot
      have h1 : b.Start.after a.End := lt_of_not_le hnot
      rw [hp, if_pos h1] at hlen
      simp at hlen
    · intro hle
      have h1 : ¬ b.Start.after a.End := not_lt.mpr hle
      rw [hp, if_neg h1]
      by_cases h2 : b.End.after a.End
      · rw [if_pos h2]; rfl
      · rw [if_neg h2]; rfl

theorem collapse_overlap_tiebreak_witness :
    (collapse [⟨wT 10 0, wT 10 30⟩, ⟨wT 10 30, wT 11 0⟩]).length = 1 :=
  (collapse_overlap_tiebreak ⟨wT 10 0, wT 10 30⟩ ⟨wT 10 30, wT 11 0⟩).2.mpr (by decide)

/-- C4: `collapse` is idempotent on sequences sorted ascending by start. -/
theorem collapse_idempotent (xs : List Event) (hs : sortedByStart xs) :
    collapse (collapse xs) = collapse xs := by
  cases xs with
  | nil => rfl
  | cons first rest =>
    exact collapse_of_separated _ (collapseAux_separated rest first)

theorem collapse_idempotent_witness :
    sortedByStart wEvents ∧ collapse (collapse wEvents) = collapse wEvents :=
  ⟨wEvents_sorted, collapse_idempotent wEvents wEvents_sorted⟩

/-- C10: for non-empty input, `collapse` returns a non-empty output whose
first interval's start is the first input interval's start, and every
output start/end occurs as a start/end in the input: no time point is
invented or shifted. -/
theorem collapse_endpoints_from_input (xs : List Event) (h : xs ≠ []) :
    collapse xs ≠ [] ∧
      (collapse xs).head?.map Event.Start = xs.head?.map Event.Start ∧
      ∀ x ∈ collapse xs,
        (∃ y ∈ xs, x.Start = y.Start) ∧ (∃ y ∈ xs, x.End = y.End) := by
  cases xs with
  | nil => exact absurd rfl h
  | cons first rest =>
    obtain ⟨hd, tl, he, hstart⟩ := collapseAux_shape rest first
    have hcol : collapse (first :: rest) = hd :: tl := he
    refine ⟨by simp [hcol], by simp [hcol, hstart], ?_⟩
    intro x hx
    obtain ⟨hS, hE⟩ := collapseAux_endpoints rest first x hx
    constructor
    · rcases hS with h' | ⟨y, hy, h'⟩
      · exact ⟨first, by simp, h'⟩
      · exact ⟨y, by simp [hy], h'⟩
    · rcases hE with h' | ⟨y, hy, h'⟩
      · exact ⟨first, by simp, h'⟩
      · exact ⟨y, by simp [hy], h'⟩

theorem collapse_endpoints_from_input_witness :
    wEvents ≠ [] ∧ collapse wEvents ≠ [] :=
  ⟨by decide, (collapse_endpoints_from_input wEvents (by decide)).1⟩

/- ### Concrete sample data for witnesses and counterexamples -/

/-- A fixed "current moment" for the presenter state. -/
def wNow : Time := ⟨2021, 5, 1, 0, 0, 0, 0, 0, "Local"⟩

/-- The initial presenter loop state. -/
def wSt : LoopSt := ⟨truncDay wNow, [], []⟩

/-- A declined timed event. -/
def declinedItem : CalEvent :=
  { Summary := "busy", Location := "", ColorId := "",
    Start := ⟨"", "2021-05-03T10:00:00Z"⟩, End := ⟨"", "2021-05-03T10:30:00Z"⟩,
    Attendees := [⟨true, "declined"⟩], Conference := none, HtmlLink := "link" }

/-- A surviving timed event with a tentative response. -/
def item8 : CalEvent :=
  { Summary := "standup", Location := "https://zoom.us/j/99", ColorId := "",
    Start := ⟨"", "2021-05-03T10:00:00Z"⟩, End := ⟨"", "2021-05-03T10:30:00Z"⟩,
    Attendees := [⟨true, "tentative"⟩], Conference := none,
    HtmlLink := "https://cal/e1" }

/-- An all-day event: raw start/end are date-only values. -/
def allDayItem : CalEvent :=
  { Summary := "conf", Location := "", ColorId := "",
    Start := ⟨"2021-05-03", ""⟩, End := ⟨"2021-05-04", ""⟩,
    Attendees := [], Conference := none, HtmlLink := "" }

/-- An event with no URL in its location but with conference data. -/
def confItem : CalEvent :=
  { Summary := "sync", Location := "Room 4", ColorId := "",
    Start := ⟨"", "2021-05-03T10:00:00Z"⟩, End := ⟨"", "2021-05-03T10:30:00Z"⟩,
    Attendees := [], Conference := some ⟨[⟨"https://zoom.example/j/1", "123", "pw"⟩]⟩,
    HtmlLink := "" }

/- ### C5: the event filter -/

/-- C5: an event is excluded from all output (no interval buffered for
the collapser in summary mode, no line printed in detail mode) exactly
when its color tag is non-empty or its resolved response status is
"declined"; every other event is buffered resp. rendered. -/
theorem filter_excludes_iff (st : LoopSt) (item : CalEvent) :
    ((item.ColorId ≠ "" ∨ rspStatusFrom item = "declined") →
        processItem true st item = st ∧ processItem false st item = st) ∧
    (¬(item.ColorId ≠ "" ∨ rspStatusFrom item = "declined") →
        (processItem true st item).evs = st.evs ++ [evFrom item] ∧
        (processItem false st item).lines =
          st.lines ++ (if dayFrom item ≠ st.prevDay then [dashLine] else []) ++
            [detailLine item]) := by
  constructor
  · rintro (h | h)
    · constructor <;> (unfold processItem; rw [if_pos h])
    · constructor <;>
        (unfold processItem
         by_cases hc : item.ColorId ≠ ""
         · rw [if_pos hc]
         · rw [if_neg hc, if_pos h])
  · intro hk
    push_neg at hk
    obtain ⟨hc, hd⟩ := hk
    constructor
    · unfold processItem
      rw [if_neg (by simp [hc]), if_neg hd, if_pos rfl]
    · unfold processItem
      rw [if_neg (by simp [hc]), if_neg hd]
      by_cases hday : dayFrom item ≠ st.prevDay
      · rw [if_neg Bool.false_ne_true, if_pos hday, if_pos hday]
        simp
      · rw [if_neg Bool.false_ne_true, if_neg hday, if_neg hday]
        simp

theorem filter_excludes_iff_witness :
    processItem true wSt declinedItem = wSt :=
  ((filter_excludes_iff wSt declinedItem).1 (Or.inr (by decide))).1

/- ### C2: behaviour on empty input and on fully filtered input -/

/-- An item dropped by the filter leaves the loop state untouched. -/
theorem processItem_dropped {item : CalEvent} (h : keepItem item = false)
    (summarize : Bool) (st : LoopSt) : processItem summarize st item = st := by
  unfold keepItem at h
  simp only [Bool.not_eq_false', Bool.or_eq_true, bne_iff_ne, beq_iff_eq] at h
  rcases h with h | h
  · unfold processItem; rw [if_pos h]
  · unfold processItem
    by_cases hc : item.ColorId ≠ ""
    · rw [if_pos hc]
    · rw [if_neg hc, if_pos h]

/-- A run over only-dropped items leaves the loop state untouched. -/
theorem foldl_processItem_dropped (items : List CalEvent)
    (h : ∀ item ∈ items, keepItem item = false) (summarize : Bool) (st : LoopSt) :
    items.foldl (processItem summarize) st = st := by
  induction items generalizing st with
  | nil => rfl
  | cons i rest ih =>
    rw [List.foldl_cons, processItem_dropped (h i (by simp)) summarize st]
    exact ih (fun x hx => h x (by simp [hx])) st

/-- C2 counterexample: a raw list with one declined event: the
filtered/normalized set is empty, yet the program prints nothing at
all — not the single no-events line. -/
theorem no_events_line_cex :
    [declinedItem].filter keepItem = [] ∧
    mainOutput wNow false [declinedItem] = [] ∧
    mainOutput wNow false [declinedItem] ≠ ["No upcoming events found."] :=
  ⟨by decide, by decide, by decide⟩

/-- C2 (amended): the no-events line is printed exactly when the raw
fetched list is empty; when the raw list is non-empty but every event
is filtered out, no output is produced at all. -/
theorem mainOutput_no_events (now : Time) (summarize : Bool)
    (items : List CalEvent) :
    (items = [] → mainOutput now summarize items = ["No upcoming events found."]) ∧
    (items ≠ [] → items.filter keepItem = [] →
      mainOutput now summarize items = []) := by
  constructor
  · rintro rfl; rfl
  · intro hne hfil
    have hall : ∀ item ∈ items, keepItem item = false := by
      intro item hi
      by_contra hkeep
      have hmem : item ∈ items.filter keepItem :=
        List.mem_filter.mpr ⟨hi, by simpa using hkeep⟩
      rw [hfil] at hmem
      exact absurd hmem (List.not_mem_nil item)
    unfold mainOutput
    rw [foldl_processItem_dropped items hall,
      if_neg (by simp [List.length_eq_zero, hne])]
    cases summarize <;> rfl

theorem mainOutput_no_events_witness :
    [declinedItem] ≠ [] ∧ mainOutput wNow true [declinedItem] = [] :=
  ⟨by decide,
    (mainOutput_no_events wNow true [declinedItem]).2 (by decide) (by decide)⟩

/- ### C6: URL resolution precedence -/

/-- The scheme part of a URL match is never empty. -/
theorem dropUrlScheme_fst_ne_nil {cs : List Char} {p : List Char × List Char}
    (h : dropUrlScheme cs = some p) : p.1 ≠ [] := by
  unfold dropUrlScheme at h
  split at h
  · cases h; simp
  · cases h; simp
  · cases h

/-- A match of the URL regexp is never the empty string. -/
theorem matchUrlAt_ne_nil {cs m : List Char} (h : matchUrlAt cs = some m) :
    m ≠ [] := by
  unfold matchUrlAt at h
  cases hd : dropUrlScheme cs with
  | none => rw [hd] at h; cases h
  | some p =>
      rw [hd] at h
      dsimp only at h
      by_cases he : (p.2.takeWhile (fun c => !isSpaceChar c)).isEmpty = true
      · rw [if_pos he] at h; cases h
      · rw [if_neg he] at h
        injection h with h'
        subst h'
        intro hnil
        exact dropUrlScheme_fst_ne_nil hd (List.append_eq_nil.mp hnil).1

/-- The leftmost URL match is never the empty string. -/
theorem findUrlAux_ne_nil : ∀ {cs m : List Char},
    findUrlAux cs = some m → m ≠ [] := by
  intro cs
  induction cs with
  | nil => intro m h; cases h
  | cons c rest ih =>
      intro m h
      unfold findUrlAux at h
      cases hm : matchUrlAt (c :: rest) with
      | some x =>
          rw [hm] at h
          injection h with h'
          subst h'
          exact matchUrlAt_ne_nil hm
      | none => rw [hm] at h; exact ih h

theorem stringMk_ne_empty {m : List Char} (h : m ≠ []) : String.mk m ≠ "" := by
  intro he
  apply h
  have hd : (String.mk m).data = ("" : String).data := by rw [he]
  simpa using hd

/-- The conference-data rendering is never the empty string. -/
theorem zoomFormat_ne_empty (u c p : String) :
    u ++ " (meeting:" ++ c ++ " pass:" ++ p ++ ")" ≠ "" := by
  intro h
  have hl := congrArg String.length h
  have h1 : (" (meeting:" : String).length = 10 := rfl
  have h2 : (" pass:" : String).length = 6 := rfl
  have h3 : (")" : String).length = 1 := rfl
  have h4 : ("" : String).length = 0 := rfl
  simp only [String.length_append, h1, h2, h3, h4] at hl
  omega

/-- C6: URL resolution precedence: (1) the first http(s) token found in
the free-text location; (2) otherwise, with conference data present, the
first entry point carrying a non-empty meeting code, rendered as
"<uri> (meeting:<code> pass:<password>)"; (3) otherwise the raw
location text verbatim. -/
theorem urlFrom_precedence (event : CalEvent) :
    (∀ m, findUrlAux event.Location.data = some m →
        urlFrom event = String.mk m) ∧
    (findUrlAux event.Location.data = none →
      ∀ conf, event.Conference = some conf →
        ∀ ep, conf.EntryPoints.find? (fun e => e.MeetingCode != "") = some ep →
          urlFrom event =
            ep.Uri ++ " (meeting:" ++ ep.MeetingCode ++ " pass:" ++ ep.Password ++ ")") ∧
    (findUrlAux event.Location.data = none → zoomFrom event.Conference = "" →
      urlFrom event = event.Location) := by
  refine ⟨?_, ?_, ?_⟩
  · intro m hm
    have hne : String.mk m ≠ "" := stringMk_ne_empty (findUrlAux_ne_nil hm)
    unfold urlFrom findUrlFindString
    rw [hm]
    dsimp only
    rw [if_neg hne, if_neg hne]
  · intro hn conf hconf ep hep
    have hz : zoomFrom (some conf) =
        ep.Uri ++ " (meeting:" ++ ep.MeetingCode ++ " pass:" ++ ep.Password ++ ")" := by
      simp only [zoomFrom]
      rw [hep]
    unfold urlFrom findUrlFindString
    rw [hn]
    dsimp only
    rw [if_pos rfl, hconf, hz,
      if_neg (zoomFormat_ne_empty ep.Uri ep.MeetingCode ep.Password)]
  · intro hn hz
    unfold urlFrom findUrlFindString
    rw [hn]
    dsimp only
    rw [if_pos rfl, hz, if_pos rfl]

theorem urlFrom_precedence_witness :
    findUrlAux (confItem.Location.data) = none ∧
    urlFrom confItem = "https://zoom.example/j/1 (meeting:123 pass:pw)" := by
  refine ⟨by decide, ?_⟩
  have h := (urlFrom_precedence confItem).2.1 (by decide) _ rfl
    ⟨"https://zoom.example/j/1", "123", "pw"⟩ (by decide)
  rw [h]
  decide

/- ### C7: ordered two-format date parsing with absent fallback -/

/-- C7: `parseDay` tries the date-only layout first and the RFC 3339
timestamp layout second, in that fixed order, returning the first
success; when neither parses it returns `none` rather than failing, and
the caller then leaves the built event's instants at the zero time. -/
theorem parseDay_ordered_fallback (s : String) :
    (∀ t, timeParse layoutDateOnly s = some t → parseDay s = some t) ∧
    (timeParse layoutDateOnly s = none →
      parseDay s = timeParse layoutRFC3339 s) ∧
    (∀ item : CalEvent,
      (parseDay (startDateFrom item) = none → (evFrom item).Start = Time.goZero) ∧
      (parseDay (endDateFrom item) = none → (evFrom item).End = Time.goZero)) := by
  refine ⟨?_, ?_, ?_⟩
  · intro t h
    unfold parseDay parseDayGo
    rw [h]
  · intro h
    unfold parseDay parseDayGo
    rw [h]
    show parseDayGo [layoutRFC3339] s = timeParse layoutRFC3339 s
    unfold parseDayGo
    cases h2 : timeParse layoutRFC3339 s with
    | some t => rfl
    | none => rfl
  · intro item
    constructor
    · intro h
      unfold evFrom
      rw [h]
    · intro h
      unfold evFrom
      rw [h]

theorem parseDay_ordered_fallback_witness :
    timeParse layoutDateOnly "2021-05-03" =
      some ⟨2021, 5, 3, 0, 0, 0, 0, 0, "UTC"⟩ ∧
    parseDay "2021-05-03" = some ⟨2021, 5, 3, 0, 0, 0, 0, 0, "UTC"⟩ :=
  ⟨by decide, (parseDay_ordered_fallback "2021-05-03").1 _ (by decide)⟩

/- ### C8: the detail-mode line -/

/-- Modelled from the spec for comparison with the code: the detail line
with the summary LEFT-padded (spaces on the left, text right-aligned) to
40 columns, as the spec's wording says. -/
def detailLineSpecPadded (item : CalEvent) : String :=
  startDateStr item ++ "-" ++ endDateStr item ++ " " ++
    (String.mk (List.replicate (40 - item.Summary.length) ' ') ++ item.Summary) ++ " " ++
    urlFrom item ++
    (if rspStatusFrom item ≠ "" ∧ rspStatusFrom item ≠ "accepted"
     then " [" ++ rspStatusFrom item ++ ": " ++ item.HtmlLink ++ "]"
     else "")

/-- C8 counterexample: the code's `%-40s` left-justifies the summary,
padding on the right; the spec's left-padded (right-aligned) line
differs at a concrete event. -/
theorem detail_line_padding_cex :
    detailLine item8 ≠ detailLineSpecPadded item8 ∧
    detailLine item8 =
      "2021-05-03 10:00-10:30 standup                                  https://zoom.us/j/99 [tentative: https://cal/e1]" :=
  ⟨by decide, by decide⟩

/-- C8 (amended): every detail-mode line has the form
"<start>-<end> <summary> <url>" with the summary left-justified and
right-padded with spaces to 40 columns, and the " [<status>: <weblink>]"
suffix is appended exactly when the resolved status is non-empty and not
"accepted". -/
theorem detail_line_shape (st : LoopSt) (item : CalEvent)
    (hc : item.ColorId = "") (hd : rspStatusFrom item ≠ "declined") :
    (processItem false st item).lines =
      st.lines ++ (if dayFrom item ≠ st.prevDay then [dashLine] else []) ++
        [startDateStr item ++ "-" ++ endDateStr item ++ " " ++
          (item.Summary ++ String.mk (List.replicate (40 - item.Summary.length) ' ')) ++
          " " ++ urlFrom item ++
          (if rspStatusFrom item ≠ "" ∧ rspStatusFrom item ≠ "accepted"
           then " [" ++ rspStatusFrom item ++ ": " ++ item.HtmlLink ++ "]"
           else "")] := by
  unfold processItem
  rw [if_neg (by simp [hc]), if_neg hd, if_neg Bool.false_ne_true]
  by_cases hday : dayFrom item ≠ st.prevDay
  · rw [if_pos hday, if_pos hday]
    simp [detailLine]
  · rw [if_neg hday, if_neg hday]
    simp [detailLine]

theorem detail_line_shape_witness :
    item8.ColorId = "" ∧ rspStatusFrom item8 ≠ "declined" ∧
    (processItem false wSt item8).lines =
      wSt.lines ++ (if dayFrom item8 ≠ wSt.prevDay then [dashLine] else []) ++
        [startDateStr item8 ++ "-" ++ endDateStr item8 ++ " " ++
          (item8.Summary ++ String.mk (List.replicate (40 - item8.Summary.length) ' ')) ++
          " " ++ urlFrom item8 ++
          (if rspStatusFrom item8 ≠ "" ∧ rspStatusFrom item8 ≠ "accepted"
           then " [" ++ rspStatusFrom item8 ++ ": " ++ item8.HtmlLink ++ "]"
           else "")] :=
  ⟨rfl, by decide, detail_line_shape wSt item8 rfl (by decide)⟩

/- ### C9: start/end rendering layouts -/

/-- A date-only parse always yields midnight. -/
theorem parseDateOnly_midnight {s : String} {t : Time}
    (h : parseDateOnly s = some t) : t.hour = 0 ∧ t.minute = 0 := by
  unfold parseDateOnly at h
  split at h
  · injection h with h'
    subst h'
    exact ⟨rfl, rfl⟩
  · cases h

/-- C9 counterexample: an all-day event (raw start without a time
component) renders its start with a "00:00" time-of-day under the fixed
"2006-01-02 15:04" layout, not as a date-only string, and its end as
"00:00", not as a date. -/
theorem allday_format_cex :
    allDayItem.Start.DateTime = "" ∧
    startDateStr allDayItem = "2021-05-03 00:00" ∧
    startDateStr allDayItem ≠ "2021-05-03" ∧
    endDateStr allDayItem = "00:00" :=
  ⟨rfl, by decide, by decide, by decide⟩

/-- C9 (amended): whenever the raw start/end parses — all-day or timed —
the start is rendered with the one fixed layout "2006-01-02 15:04" and
the end with the one fixed layout "15:04"; the format does not depend on
whether the raw value carried a time component. Date-only values parse
to midnight, so all-day events show "00:00" as their time-of-day. -/
theorem render_layout_fixed (item : CalEvent) (ds de : Time)
    (hs : parseDay (startDateFrom item) = some ds)
    (he : parseDay (endDateFrom item) = some de) :
    startDateStr item = formatYMDHM ds ∧ endDateStr item = formatHM de ∧
    (∀ t, parseDateOnly (startDateFrom item) = some t → formatHM t = "00:00") := by
  refine ⟨?_, ?_, ?_⟩
  · unfold startDateStr; rw [hs]
  · unfold endDateStr; rw [he]
  · intro t ht
    obtain ⟨h0, h1⟩ := parseDateOnly_midnight ht
    unfold formatHM
    rw [h0, h1]
    rfl

theorem render_layout_fixed_witness :
    parseDay (startDateFrom allDayItem) =
      some ⟨2021, 5, 3, 0, 0, 0, 0, 0, "UTC"⟩ ∧
    startDateStr allDayItem = formatYMDHM ⟨2021, 5, 3, 0, 0, 0, 0, 0, "UTC"⟩ :=
  ⟨by decide,
    (render_layout_fixed allDayItem ⟨2021, 5, 3, 0, 0, 0, 0, 0, "UTC"⟩
      ⟨2021, 5, 4, 0, 0, 0, 0, 0, "UTC"⟩ (by decide) (by decide)).1⟩

end NextMeeting
